import Mathlib

/-!
Verification of the grind-dashboard particle-size engine.

The definitions below are a shallow embedding of the numeric core of
`grind_dashboard.py` (with the sibling forms in `app.py` and
`streamlit_grind_comparison.py` noted where they differ):

* `interpVal` / `countLE` embed `numpy.interp` on a table of sample
  points (`xp`) and values (`fp`): clamping at both ends, tabulated value
  at an exact knot, linear interpolation inside an interval.  For a
  non-decreasing abscissa table, numpy's binary search returns the count
  of entries that are ≤ to the query, minus one, as the bracketing index;
  `countLE` computes that count directly.
* `kpis` embeds the `kpis` function (lines 52-69): the explicit length
  guard raising ValueError, the ValueError `numpy.interp` raises on an
  empty sample-point array (reached at the first `d_at` call), and the
  D10/D50/D90/span/fines/oversize formulas.  Exceptions are modelled by
  the `Except KpiError` channel; real arithmetic is modelled over ℚ.
* `fdiv` models IEEE double division of finite operands for the span
  formula: a zero divisor warns and produces a signed infinity or NaN in
  the source instead of raising; `FVal` carries those non-finite results.
* `densityPoints` embeds the density computation
  (`mids = (sz[:-1]+sz[1:])/2`, `density = np.diff(un)/np.diff(sz)`,
  lines 109-113), written as direct recursion over adjacent pairs;
  `curveDensity` adds the guards of the chart loop (lines 106 and 110).
* `processSamples` embeds the KPI table loop (lines 74-81): per-sample
  try/except, the error report naming the sample, and the batch
  continuing past a failed sample.
* `executiveTakeaway` embeds the takeaway section (lines 146-173),
  including the fact that `mac3_best` is assigned only inside
  `if colombini_grinders:` while the delta lines sit outside that guard,
  so an empty candidate list reaches an unbound local (NameError).
-/

namespace GrindDashboard

/-- Result of a floating-point operation in the source: a finite value
(modelled as an exact rational), a signed infinity, or NaN. -/
inductive FVal where
  | val (q : ℚ)
  | posInf
  | negInf
  | nan
  deriving DecidableEq, Repr, Inhabited

/-- Division of finite operands as IEEE doubles perform it: a zero divisor
does not raise; it yields +∞, −∞ or NaN according to the sign of the
numerator (numpy emits a RuntimeWarning and continues). -/
def fdiv (a b : ℚ) : FVal :=
  if b ≠ 0 then .val (a / b)
  else if 0 < a then .posInf
  else if a < 0 then .negInf
  else .nan

/-- Number of table abscissas that are ≤ the query.  For a non-decreasing
table this is one more than the interval index numpy's binary search
returns for the query. -/
def countLE (x : ℚ) (xp : List ℚ) : ℕ :=
  xp.countP fun v => decide (v ≤ x)

/-- Core of `numpy.interp` for a nonempty table of abscissas `xp` and
ordinates `fp` of equal length: clamp to `fp.head` below the table and to
`fp.getLast` above it, return the tabulated ordinate at an exact knot, and
linearly interpolate inside an interval. -/
def interpVal (x : ℚ) (xp fp : List ℚ) : ℚ :=
  let n := xp.length
  let c := countLE x xp
  if c = 0 then fp.getD 0 0
  else if c - 1 = n - 1 then fp.getD (n - 1) 0
  else if xp.getD (c - 1) 0 = x then fp.getD (c - 1) 0
  else
    fp.getD (c - 1) 0 +
      (fp.getD c 0 - fp.getD (c - 1) 0) * (x - xp.getD (c - 1) 0) /
        (xp.getD c 0 - xp.getD (c - 1) 0)

/-- Exceptions the KPI extraction can raise: the explicit ValueError of the
length guard (carrying the two lengths the message interpolates), and the
ValueError `numpy.interp` raises on an empty sample-point array. -/
inductive KpiError where
  | lengthMismatch (sizesLen undersizeLen : ℕ)
  | emptyInterpTable
  deriving DecidableEq, Repr

/-- The six KPI values `kpis` returns as a tuple:
`d10, d50, d90, span, fines, overs`. -/
structure KpiRecord where
  d10 : ℚ
  d50 : ℚ
  d90 : ℚ
  span : FVal
  fines : ℚ
  overs : ℚ
  deriving DecidableEq, Repr, Inhabited

/-- KPI extraction, embedding `kpis` of grind_dashboard.py lines 52-69.
The length guard mirrors the explicit ValueError; the emptiness guard
mirrors the ValueError numpy.interp raises at the first `d_at` call when
the sample-point array is empty; afterwards every interpolation is total.
`d_at pct` is `interpVal pct undersize sizes`; fines and oversize
interpolate in the other direction. -/
def kpis (sizes undersize : List ℚ) : Except KpiError KpiRecord :=
  if sizes.length ≠ undersize.length then
    .error (.lengthMismatch sizes.length undersize.length)
  else if sizes.isEmpty then
    .error .emptyInterpTable
  else
    let d10 := interpVal 10 undersize sizes
    let d50 := interpVal 50 undersize sizes
    let d90 := interpVal 90 undersize sizes
    .ok { d10 := d10, d50 := d50, d90 := d90,
          span := fdiv (d90 - d10) d50,
          fines := interpVal 100 sizes undersize,
          overs := 100 - interpVal 1000 sizes undersize }

/-- Midpoint/slope pairs for each adjacent pair of tabulated points,
embedding `mids = (sz[:-1] + sz[1:]) / 2` and
`density = np.diff(un) / np.diff(sz)` applied to equal-length samples. -/
def densityPoints : List ℚ → List ℚ → List (ℚ × ℚ)
  | s0 :: s1 :: ss, u0 :: u1 :: us =>
      ((s0 + s1) / 2, (u1 - u0) / (s1 - s0)) :: densityPoints (s1 :: ss) (u1 :: us)
  | _, _ => []

/-- Density rows the chart loop of grind_dashboard.py emits for one
sample: skipped entirely on a length mismatch (line 106) and guarded by a
minimum of two points before differencing (line 110).  The result is a
plain list; no error channel exists on this path. -/
def curveDensity (sizes undersize : List ℚ) : List (ℚ × ℚ) :=
  if sizes.length = undersize.length ∧ 1 < sizes.length then
    densityPoints sizes undersize
  else []

/-- Sum over all adjacent pairs of density times bin width, i.e.
`Σ density[i] * (size[i+1] - size[i])` with the same density expression as
`densityPoints`. -/
def densitySum : List ℚ → List ℚ → ℚ
  | s0 :: s1 :: ss, u0 :: u1 :: us =>
      (u1 - u0) / (s1 - s0) * (s1 - s0) + densitySum (s1 :: ss) (u1 :: us)
  | _, _ => 0

/-- The KPI-table loop of grind_dashboard.py lines 74-81: each sample is
processed independently; a successful sample contributes a row, a failed
sample contributes an error report that pairs the sample name with the
raised error, and the loop continues with the remaining samples. -/
def processSamples : List (String × List ℚ × List ℚ) →
    List (String × KpiRecord) × List (String × KpiError)
  | [] => ([], [])
  | (name, sz, un) :: rest =>
    let (rows, errs) := processSamples rest
    match kpis sz un with
    | .ok r => ((name, r) :: rows, errs)
    | .error e => (rows, (name, e) :: errs)

/-- Addition of floating-point results: NaN propagates, infinities of
opposite sign give NaN, otherwise an infinity absorbs finite values. -/
def FVal.add : FVal → FVal → FVal
  | .val a, .val b => .val (a + b)
  | .nan, _ => .nan
  | _, .nan => .nan
  | .posInf, .negInf => .nan
  | .negInf, .posInf => .nan
  | .posInf, _ => .posInf
  | _, .posInf => .posInf
  | .negInf, _ => .negInf
  | _, .negInf => .negInf

/-- Subtraction of floating-point results, matching IEEE conventions for
the non-finite cases. -/
def FVal.sub : FVal → FVal → FVal
  | .val a, .val b => .val (a - b)
  | .nan, _ => .nan
  | _, .nan => .nan
  | .posInf, .posInf => .nan
  | .negInf, .negInf => .nan
  | .posInf, _ => .posInf
  | _, .posInf => .negInf
  | .negInf, _ => .negInf
  | _, .negInf => .posInf

/-- Division of a floating-point result by a positive count (the candidate
count of a mean): finite values divide exactly, non-finite values are
preserved. -/
def FVal.divCount (v : FVal) (n : ℕ) : FVal :=
  match v with
  | .val a => .val (a / (n : ℚ))
  | x => x

/-- Mean of the span column as `pandas.DataFrame.mean` computes it: NaN
entries are skipped (default skipna), an empty remainder yields NaN, and
infinities propagate through the sum. -/
def spanMean (vs : List FVal) : FVal :=
  let fin := vs.filter fun v => decide (v ≠ FVal.nan)
  if fin.isEmpty then .nan
  else (fin.foldr FVal.add (.val 0)).divCount fin.length

/-- Column-wise mean of a list of KPI rows, as
`metrics_df.loc[colombini_grinders].mean()` computes it. -/
def kpiMean (rs : List KpiRecord) : KpiRecord :=
  let n : ℚ := rs.length
  { d10 := (rs.map (·.d10)).sum / n,
    d50 := (rs.map (·.d50)).sum / n,
    d90 := (rs.map (·.d90)).sum / n,
    span := spanMean (rs.map (·.span)),
    fines := (rs.map (·.fines)).sum / n,
    overs := (rs.map (·.overs)).sum / n }

/-- Grinder labels used by the takeaway section. -/
def dittingName : String := "Ditting"

/-- Label of the first Colombini test sample. -/
def colombiniT1Name : String := "Colombini T1"

/-- Label of the second Colombini test sample. -/
def colombiniT2Name : String := "Colombini T2"

/-- The numbers the executive-takeaway markdown interpolates: the two D50
values, the absolute fines and oversize deltas, and the signed span
delta. -/
structure Takeaway where
  dittingD50 : ℚ
  mac3D50 : ℚ
  absDeltaFines : ℚ
  absDeltaOvers : ℚ
  deltaSpan : FVal
  deriving DecidableEq, Repr

/-- Failure modes of the takeaway section: the else-branch error message
when no valid baseline row exists, and the NameError raised when the
delta lines read `mac3_best` although the empty candidate list skipped
its assignment. -/
inductive TakeawayError where
  | noValidData
  | nameErrorMac3Best
  deriving DecidableEq, Repr

/-- The executive-takeaway section of grind_dashboard.py lines 146-173.
The outer guard requires a nonempty metrics table containing the Ditting
baseline.  `mac3_best` is assigned only under `if colombini_grinders:`;
the three delta computations and the markdown sit outside that guard, so
an empty candidate list reaches an unbound local and the script dies with
a NameError before any takeaway output is produced. -/
def executiveTakeaway (metrics : List (String × KpiRecord)) :
    Except TakeawayError Takeaway :=
  if 0 < metrics.length ∧ metrics.any (fun p => p.1 == dittingName) then
    let ditting :=
      ((metrics.find? fun p => p.1 == dittingName).map Prod.snd).getD default
    let cands := [colombiniT1Name, colombiniT2Name].filter
      fun g => metrics.any fun p => p.1 == g
    if cands.isEmpty then
      .error .nameErrorMac3Best
    else
      let mac3 := kpiMean (cands.filterMap
        fun g => (metrics.find? fun p => p.1 == g).map Prod.snd)
      .ok { dittingD50 := ditting.d50,
            mac3D50 := mac3.d50,
            absDeltaFines := |ditting.fines - mac3.fines|,
            absDeltaOvers := |ditting.overs - mac3.overs|,
            deltaSpan := ditting.span.sub mac3.span }
  else
    .error .noValidData

/-- Particle sizes (µm) of the Ditting sample from the `raw` table. -/
def dittingSizes : List ℚ :=
  [10, 20, 30, 40, 60, 70, 80, 90, 100, 120, 140, 160, 180, 200, 250, 300,
   350, 400, 500, 550, 600, 650, 700, 750, 800, 850, 900, 950, 1000, 1100,
   1200, 1300, 1400, 1500]

/-- Cumulative percent-undersize of the Ditting sample. -/
def dittingUndersize : List ℚ :=
  [0.19, 2.65, 6.04, 8.89, 12.73, 14.08, 15.19, 16.12, 16.88, 18.00, 18.74,
   19.27, 19.77, 20.40, 23.05, 27.64, 33.84, 41.23, 56.84, 64.00, 70.49,
   76.19, 80.97, 85.21, 88.41, 91.31, 93.36, 95.14, 96.51, 98.36, 99.23,
   99.75, 99.94, 100.00]

/-- Particle sizes (µm) of the Colombini T1 sample. -/
def colombiniT1Sizes : List ℚ :=
  [10, 20, 30, 40, 60, 70, 80, 90, 100, 120, 140, 160, 180, 200, 250, 300,
   350, 400, 500, 550, 600, 650, 700, 750, 800, 850, 900, 950, 1000, 1100,
   1200, 1300, 1400]

/-- Cumulative percent-undersize of the Colombini T1 sample; note the
repeated final value 99.77 (the undersize table is not strictly
increasing). -/
def colombiniT1Undersize : List ℚ :=
  [0.10, 1.75, 4.01, 5.97, 8.87, 9.99, 10.96, 11.79, 12.49, 13.58, 14.36,
   14.99, 15.62, 16.41, 19.48, 24.39, 30.80, 38.29, 53.99, 61.21, 67.78,
   73.01, 78.56, 82.97, 86.38, 89.49, 91.76, 93.75, 95.32, 97.54, 99.43,
   99.77, 99.77]

/-!
Auxiliary lemmas about the interpolation core: how `countLE` brackets a
query in a sorted table, and the clamping/monotonicity facts of
`interpVal` that the percentile claims rely on.
-/

theorem getD_eq_getElem {α : Type} (l : List α) {i : ℕ} (h : i < l.length) (d : α) :
    l.getD i d = l[i] := by
  rw [List.getD_eq_getElem?_getD, List.getElem?_eq_getElem h, Option.getD_some]

theorem countLE_le_length (x : ℚ) (xp : List ℚ) : countLE x xp ≤ xp.length :=
  List.countP_le_length _

theorem countLE_mono_query {x y : ℚ} (xp : List ℚ) (hxy : x ≤ y) :
    countLE x xp ≤ countLE y xp := by
  refine List.countP_mono_left fun v _ hv => ?_
  rw [decide_eq_true_eq] at *
  exact le_trans hv hxy

theorem countLE_cons (x a : ℚ) (l : List ℚ) :
    countLE x (a :: l) = countLE x l + if a ≤ x then 1 else 0 := by
  simp [countLE, List.countP_cons]

theorem countLE_eq_zero_of_head {x a : ℚ} {l : List ℚ}
    (hs : List.Sorted (· ≤ ·) (a :: l)) (hax : ¬a ≤ x) : countLE x (a :: l) = 0 := by
  rw [List.sorted_cons] at hs
  refine List.countP_eq_zero.mpr fun b hb => ?_
  rw [decide_eq_true_eq]
  rcases List.mem_cons.mp hb with rfl | hbl
  · exact hax
  · exact fun hbx => hax (le_trans (hs.1 b hbl) hbx)

theorem getD_le_of_lt_countLE {x : ℚ} {xp : List ℚ} (hs : List.Sorted (· ≤ ·) xp)
    {i : ℕ} (hi : i < countLE x xp) : xp.getD i 0 ≤ x := by
  induction xp generalizing i with
  | nil => simp [countLE] at hi
  | cons a l ih =>
    by_cases hax : a ≤ x
    · rcases i with _ | i
      · simpa using hax
      · rw [countLE_cons, if_pos hax] at hi
        simpa using ih (List.sorted_cons.mp hs).2 (by omega)
    · rw [countLE_eq_zero_of_head hs hax] at hi
      omega

theorem lt_getD_of_countLE_le {x : ℚ} {xp : List ℚ} (hs : List.Sorted (· ≤ ·) xp)
    {i : ℕ} (hci : countLE x xp ≤ i) (hn : i < xp.length) : x < xp.getD i 0 := by
  induction xp generalizing i with
  | nil => simp at hn
  | cons a l ih =>
    rcases i with _ | i
    · have : countLE x (a :: l) = 0 := by omega
      have ha : ¬a ≤ x := by
        intro hax
        rw [countLE_cons, if_pos hax] at this
        omega
      simpa using lt_of_not_le ha
    · by_cases hax : a ≤ x
      · rw [countLE_cons, if_pos hax] at hci
        simpa using ih (List.sorted_cons.mp hs).2 (by omega) (by simpa using hn)
      · have h0 : countLE x l = 0 := by
          have := countLE_eq_zero_of_head hs hax
          rw [countLE_cons, if_neg hax] at this
          omega
        simpa using ih (List.sorted_cons.mp hs).2 (by omega) (by simpa using hn)

theorem lt_countLE_of_getD_le {x : ℚ} {xp : List ℚ} (hs : List.Sorted (· ≤ ·) xp)
    {i : ℕ} (hn : i < xp.length) (h : xp.getD i 0 ≤ x) : i < countLE x xp := by
  by_contra hc
  exact absurd h (not_le.mpr (lt_getD_of_countLE_le hs (by omega) hn))

theorem getD_mono_of_sorted {fp : List ℚ} (hs : List.Sorted (· ≤ ·) fp)
    {i j : ℕ} (hij : i ≤ j) (hj : j < fp.length) : fp.getD i 0 ≤ fp.getD j 0 := by
  rcases eq_or_lt_of_le hij with rfl | hlt
  · exact le_refl _
  · have hi : i < fp.length := lt_trans hlt hj
    rw [getD_eq_getElem _ hi, getD_eq_getElem _ hj]
    exact List.pairwise_iff_getElem.mp hs i j hi hj hlt

theorem getD_strict_mono_of_sorted {fp : List ℚ} (hs : List.Sorted (· < ·) fp)
    {i j : ℕ} (hij : i < j) (hj : j < fp.length) : fp.getD i 0 < fp.getD j 0 := by
  have hi : i < fp.length := lt_trans hij hj
  rw [getD_eq_getElem _ hi, getD_eq_getElem _ hj]
  exact List.pairwise_iff_getElem.mp hs i j hi hj hij



theorem interpVal_lower {x : ℚ} {xp fp : List ℚ} (hxp : List.Sorted (· ≤ ·) xp)
    (hfp : List.Sorted (· ≤ ·) fp) (hlen : xp.length = fp.length) (hne : xp ≠ []) :
    fp.getD (countLE x xp - 1) 0 ≤ interpVal x xp fp := by
  have hn : 0 < xp.length := List.length_pos.mpr hne
  set n := xp.length with hndef
  set c := countLE x xp with hcdef
  have hcn : c ≤ n := countLE_le_length x xp
  rw [interpVal]
  simp only [← hcdef, ← hndef]
  by_cases hc0 : c = 0
  · rw [if_pos hc0, hc0]
  · rw [if_neg hc0]
    by_cases hlast : c - 1 = n - 1
    · rw [if_pos hlast, hlast]
    · rw [if_neg hlast]
      have hcltn : c < n := by omega
      have hx1 : xp.getD (c - 1) 0 ≤ x :=
        getD_le_of_lt_countLE hxp (by omega)
      have hx2 : x < xp.getD c 0 :=
        lt_getD_of_countLE_le hxp (le_refl c) hcltn
      have hD : 0 < xp.getD c 0 - xp.getD (c - 1) 0 := by linarith
      have hF : fp.getD (c - 1) 0 ≤ fp.getD c 0 :=
        getD_mono_of_sorted hfp (by omega) (by omega)
      by_cases hknot : xp.getD (c - 1) 0 = x
      · rw [if_pos hknot]
      · rw [if_neg hknot]
        have hnn : 0 ≤ (fp.getD c 0 - fp.getD (c - 1) 0) * (x - xp.getD (c - 1) 0) /
            (xp.getD c 0 - xp.getD (c - 1) 0) := by
          apply div_nonneg
          · apply mul_nonneg <;> linarith
          · linarith
        linarith

theorem interpVal_upper {x : ℚ} {xp fp : List ℚ} (hxp : List.Sorted (· ≤ ·) xp)
    (hfp : List.Sorted (· ≤ ·) fp) (hlen : xp.length = fp.length) (hne : xp ≠ []) :
    interpVal x xp fp ≤ fp.getD (min (countLE x xp) (xp.length - 1)) 0 := by
  have hn : 0 < xp.length := List.length_pos.mpr hne
  set n := xp.length with hndef
  set c := countLE x xp with hcdef
  have hcn : c ≤ n := countLE_le_length x xp
  rw [interpVal]
  simp only [← hcdef, ← hndef]
  by_cases hc0 : c = 0
  · rw [if_pos hc0, hc0, Nat.min_eq_left (by omega)]
  · rw [if_neg hc0]
    by_cases hlast : c - 1 = n - 1
    · rw [if_pos hlast]
      have hceq : c = n := by omega
      rw [hceq, Nat.min_eq_right (by omega)]
    · rw [if_neg hlast]
      have hcltn : c < n := by omega
      rw [Nat.min_eq_left (by omega)]
      have hx1 : xp.getD (c - 1) 0 ≤ x :=
        getD_le_of_lt_countLE hxp (by omega)
      have hx2 : x < xp.getD c 0 :=
        lt_getD_of_countLE_le hxp (le_refl c) hcltn
      have hD : 0 < xp.getD c 0 - xp.getD (c - 1) 0 := by linarith
      have hF : fp.getD (c - 1) 0 ≤ fp.getD c 0 :=
        getD_mono_of_sorted hfp (by omega) (by omega)
      by_cases hknot : xp.getD (c - 1) 0 = x
      · rw [if_pos hknot]
        exact getD_mono_of_sorted hfp (by omega) (by omega)
      · rw [if_neg hknot]
        have hdel : 0 ≤ fp.getD c 0 - fp.getD (c - 1) 0 := by linarith
        have htD : x - xp.getD (c - 1) 0 ≤ xp.getD c 0 - xp.getD (c - 1) 0 := by
          linarith
        have hdiv : (fp.getD c 0 - fp.getD (c - 1) 0) * (x - xp.getD (c - 1) 0) /
            (xp.getD c 0 - xp.getD (c - 1) 0) ≤ fp.getD c 0 - fp.getD (c - 1) 0 := by
          rw [div_le_iff₀ hD]
          exact mul_le_mul_of_nonneg_left htD hdel
        linarith


theorem interpVal_mono {x y : ℚ} {xp fp : List ℚ} (hxp : List.Sorted (· ≤ ·) xp)
    (hfp : List.Sorted (· ≤ ·) fp) (hlen : xp.length = fp.length) (hne : xp ≠ [])
    (hxy : x ≤ y) : interpVal x xp fp ≤ interpVal y xp fp := by
  have hn : 0 < xp.length := List.length_pos.mpr hne
  have hcc : countLE x xp ≤ countLE y xp := countLE_mono_query xp hxy
  by_cases hceq : countLE x xp = countLE y xp
  · -- same bracketing interval
    set n := xp.length with hndef
    set c := countLE x xp with hcdef
    have hcn : c ≤ n := countLE_le_length x xp
    rw [interpVal, interpVal]
    simp only [← hcdef, ← hndef, ← hceq]
    by_cases hc0 : c = 0
    · rw [if_pos hc0, if_pos hc0]
    · rw [if_neg hc0, if_neg hc0]
      by_cases hlast : c - 1 = n - 1
      · rw [if_pos hlast, if_pos hlast]
      · rw [if_neg hlast, if_neg hlast]
        have hcltn : c < n := by omega
        have hx1 : xp.getD (c - 1) 0 ≤ x :=
          getD_le_of_lt_countLE hxp (by omega)
        have hx2 : x < xp.getD c 0 :=
          lt_getD_of_countLE_le hxp (le_refl c) hcltn
        have hy1 : xp.getD (c - 1) 0 ≤ y := by
          have := getD_le_of_lt_countLE (x := y) hxp (i := c - 1) (by omega)
          exact this
        have hy2 : y < xp.getD c 0 := by
          have := lt_getD_of_countLE_le (x := y) hxp (i := c) (by omega) hcltn
          exact this
        have hD : 0 < xp.getD c 0 - xp.getD (c - 1) 0 := by linarith
        have hF : fp.getD (c - 1) 0 ≤ fp.getD c 0 :=
          getD_mono_of_sorted hfp (by omega) (by omega)
        by_cases hkx : xp.getD (c - 1) 0 = x
        · rw [if_pos hkx]
          by_cases hky : xp.getD (c - 1) 0 = y
          · rw [if_pos hky]
          · rw [if_neg hky]
            have hnn : 0 ≤ (fp.getD c 0 - fp.getD (c - 1) 0) * (y - xp.getD (c - 1) 0) /
                (xp.getD c 0 - xp.getD (c - 1) 0) := by
              apply div_nonneg
              · apply mul_nonneg <;> linarith
              · linarith
            linarith
        · rw [if_neg hkx]
          have hky : ¬xp.getD (c - 1) 0 = y := by
            intro hky
            exact hkx (le_antisymm hx1 (hky ▸ hxy))
          rw [if_neg hky]
          have hfrac : (fp.getD c 0 - fp.getD (c - 1) 0) * (x - xp.getD (c - 1) 0) /
                (xp.getD c 0 - xp.getD (c - 1) 0) ≤
              (fp.getD c 0 - fp.getD (c - 1) 0) * (y - xp.getD (c - 1) 0) /
                (xp.getD c 0 - xp.getD (c - 1) 0) := by
            exact div_le_div_of_nonneg_right
              (mul_le_mul_of_nonneg_left (by linarith) (by linarith)) hD.le
          linarith
  · -- the query moved to a later interval: chain through the table values
    have hlow : fp.getD (countLE y xp - 1) 0 ≤ interpVal y xp fp :=
      interpVal_lower hxp hfp hlen hne
    have hupp : interpVal x xp fp ≤ fp.getD (min (countLE x xp) (xp.length - 1)) 0 :=
      interpVal_upper hxp hfp hlen hne
    have hcyn : countLE y xp ≤ xp.length := countLE_le_length y xp
    have hidx : min (countLE x xp) (xp.length - 1) ≤ countLE y xp - 1 := by omega
    have hmid : fp.getD (min (countLE x xp) (xp.length - 1)) 0 ≤
        fp.getD (countLE y xp - 1) 0 :=
      getD_mono_of_sorted hfp hidx (by omega)
    linarith

/-!
Claim theorems.  Each claim of the specification is settled below; the
helper lemmas immediately preceding a theorem carry the inductive or
arithmetic content it shares with its witness.
-/

theorem kpis_ok_iff (sizes undersize : List ℚ) (r : KpiRecord) :
    kpis sizes undersize = Except.ok r ↔
      sizes.length = undersize.length ∧ sizes ≠ [] ∧
      r = { d10 := interpVal 10 undersize sizes,
            d50 := interpVal 50 undersize sizes,
            d90 := interpVal 90 undersize sizes,
            span := fdiv (interpVal 90 undersize sizes - interpVal 10 undersize sizes)
              (interpVal 50 undersize sizes),
            fines := interpVal 100 sizes undersize,
            overs := 100 - interpVal 1000 sizes undersize } := by
  rw [kpis]
  by_cases h1 : sizes.length = undersize.length
  · rw [if_neg (by omega)]
    by_cases h2 : sizes.isEmpty
    · rw [if_pos h2]
      rw [List.isEmpty_iff] at h2
      simp [h1, h2]
    · rw [if_neg h2]
      rw [List.isEmpty_iff] at h2
      simp only [Except.ok.injEq]
      constructor
      · intro h
        exact ⟨h1, h2, h.symm⟩
      · rintro ⟨-, -, h⟩
        exact h.symm
  · rw [if_pos h1]
    simp [h1]

theorem headD_eq_getD {α : Type} (l : List α) (d : α) : l.headD d = l.getD 0 d := by
  cases l <;> rfl

theorem getLastD_eq_getD {α : Type} : ∀ (l : List α), l ≠ [] → ∀ d : α,
    l.getLastD d = l.getD (l.length - 1) d
  | [a], _, d => rfl
  | a :: b :: t, _, d => by
    have ih := getLastD_eq_getD (b :: t) (by simp) a
    have h1 : (a :: b :: t).getLastD d = (b :: t).getLastD a := rfl
    have hl : (a :: b :: t).length - 1 = t.length + 1 := by simp
    have hl2 : (b :: t).length - 1 = t.length := by simp
    have hlt : t.length < (b :: t).length := by simp
    rw [h1, ih, hl, List.getD_cons_succ, hl2,
      getD_eq_getElem _ hlt, getD_eq_getElem _ hlt]

theorem interpVal_knot {x : ℚ} {xp fp : List ℚ} (hxp : List.Sorted (· < ·) xp)
    {k : ℕ} (hk : k < xp.length) (hknot : xp.getD k 0 = x) :
    interpVal x xp fp = fp.getD k 0 := by
  have hxple : List.Sorted (· ≤ ·) xp := hxp.imp le_of_lt
  have hlow : k < countLE x xp := lt_countLE_of_getD_le hxple hk (le_of_eq hknot)
  have hupp : countLE x xp ≤ k + 1 := by
    by_contra hcon
    push_neg at hcon
    have hkn : k + 1 < xp.length := by
      have := countLE_le_length x xp
      omega
    have h1 : xp.getD (k + 1) 0 ≤ x := getD_le_of_lt_countLE hxple (by omega)
    have h2 : xp.getD k 0 < xp.getD (k + 1) 0 :=
      getD_strict_mono_of_sorted hxp (by omega) hkn
    rw [hknot] at h2
    linarith
  have hc : countLE x xp = k + 1 := by omega
  rw [interpVal]
  simp only [hc, Nat.add_sub_cancel]
  rw [if_neg (by omega)]
  by_cases hlast : k = xp.length - 1
  · rw [if_pos hlast, hlast]
  · rw [if_neg hlast, if_pos hknot]

theorem sorted_head_le {x : ℚ} {l : List ℚ} (hs : List.Sorted (· ≤ ·) l)
    (hx : x ∈ l) : l.getD 0 0 ≤ x := by
  cases l with
  | nil => simp at hx
  | cons a t =>
    rcases List.mem_cons.mp hx with rfl | hxt
    · simp
    · simpa using (List.sorted_cons.mp hs).1 x hxt

theorem sorted_le_getLast {x : ℚ} {l : List ℚ} (hs : List.Sorted (· ≤ ·) l)
    (hx : x ∈ l) : x ≤ l.getD (l.length - 1) 0 := by
  obtain ⟨i, hi, rfl⟩ := List.mem_iff_getElem.mp hx
  have h0 : 0 < l.length := by omega
  rw [← getD_eq_getElem _ hi]
  exact getD_mono_of_sorted hs (by omega) (by omega)


theorem interpVal_clamp_below {x : ℚ} {xp fp : List ℚ}
    (hxp : List.Sorted (· ≤ ·) xp) (hlow : x < xp.getD 0 0) :
    interpVal x xp fp = fp.getD 0 0 := by
  have hc : countLE x xp = 0 := by
    refine List.countP_eq_zero.mpr fun b hb => ?_
    rw [decide_eq_true_eq]
    intro hbx
    exact absurd (lt_of_lt_of_le hlow (sorted_head_le hxp hb)) (not_lt.mpr hbx)
  rw [interpVal]
  simp only [hc]
  rw [if_pos trivial]

theorem interpVal_clamp_above {x : ℚ} {xp fp : List ℚ}
    (hxp : List.Sorted (· ≤ ·) xp) (hne : xp ≠ [])
    (hhigh : xp.getD (xp.length - 1) 0 < x) :
    interpVal x xp fp = fp.getD (xp.length - 1) 0 := by
  have hn : 0 < xp.length := List.length_pos.mpr hne
  have hc : countLE x xp = xp.length := by
    refine List.countP_eq_length.mpr fun b hb => ?_
    rw [decide_eq_true_eq]
    exact le_of_lt (lt_of_le_of_lt (sorted_le_getLast hxp hb) hhigh)
  rw [interpVal]
  simp only [hc]
  rw [if_neg (by omega), if_pos trivial]


/-- C5: for every valid sample (sizes strictly increasing, undersize
non-decreasing) whose KPI extraction succeeds, the interpolated
percentiles satisfy D10 ≤ D50 ≤ D90. -/
theorem d10_le_d50_le_d90 (sizes undersize : List ℚ) (r : KpiRecord)
    (hsz : List.Sorted (· < ·) sizes)
    (hun : List.Sorted (· ≤ ·) undersize)
    (hok : kpis sizes undersize = Except.ok r) :
    r.d10 ≤ r.d50 ∧ r.d50 ≤ r.d90 := by
  obtain ⟨hlen, hne, rfl⟩ := (kpis_ok_iff _ _ _).mp hok
  have hfp : List.Sorted (· ≤ ·) sizes := hsz.imp le_of_lt
  have hune : undersize ≠ [] := by
    intro h
    apply hne
    have := hlen
    rw [h] at this
    simpa using List.length_eq_zero.mp (by simpa using this)
  constructor
  · exact interpVal_mono hun hfp hlen.symm hune (by norm_num)
  · exact interpVal_mono hun hfp hlen.symm hune (by norm_num)

/-- C6: for a valid sample, a target percentage strictly below the first
tabulated undersize value yields the first tabulated size, and one
strictly above the last tabulated undersize value yields the last
tabulated size — the lookup clamps, it never extrapolates. -/
theorem percentile_lookup_clamps (sizes undersize : List ℚ) (pct : ℚ)
    (hlen : sizes.length = undersize.length)
    (hun : List.Sorted (· ≤ ·) undersize) (hne : undersize ≠ []) :
    (pct < undersize.headD 0 → interpVal pct undersize sizes = sizes.headD 0) ∧
    (undersize.getLastD 0 < pct →
      interpVal pct undersize sizes = sizes.getLastD 0) := by
  have hsne : sizes ≠ [] := by
    intro h
    apply hne
    rw [h] at hlen
    exact List.length_eq_zero.mp (by simpa using hlen.symm)
  constructor
  · intro hlow
    rw [headD_eq_getD] at hlow
    rw [headD_eq_getD]
    exact interpVal_clamp_below hun hlow
  · intro hhigh
    rw [getLastD_eq_getD undersize hne] at hhigh
    rw [getLastD_eq_getD sizes hsne]
    rw [interpVal_clamp_above hun hne hhigh, hlen]

/-- C8: when 100 µm is exactly the k-th tabulated size of a valid sample,
the fines percentage the KPI extraction returns is exactly the sample's
own tabulated undersize value at that knot. -/
theorem fines_exact_at_knot (sizes undersize : List ℚ) (k : ℕ)
    (hk : k < sizes.length) (hlen : sizes.length = undersize.length)
    (hsz : List.Sorted (· < ·) sizes) (hknot : sizes.getD k 0 = 100) :
    (kpis sizes undersize).map KpiRecord.fines =
      Except.ok (undersize.getD k 0) := by
  have hne : sizes ≠ [] := by
    intro h
    rw [h] at hk
    simp at hk
  have hok : kpis sizes undersize = Except.ok
      { d10 := interpVal 10 undersize sizes,
        d50 := interpVal 50 undersize sizes,
        d90 := interpVal 90 undersize sizes,
        span := fdiv (interpVal 90 undersize sizes - interpVal 10 undersize sizes)
          (interpVal 50 undersize sizes),
        fines := interpVal 100 sizes undersize,
        overs := 100 - interpVal 1000 sizes undersize } :=
    (kpis_ok_iff _ _ _).mpr ⟨hlen, hne, rfl⟩
  rw [hok]
  show Except.ok (interpVal 100 sizes undersize) = _
  rw [interpVal_knot hsz hk hknot]


theorem kpis_scenario_computed :
    kpis [10, 100, 1000] [0, 50, 100] =
      Except.ok { d10 := 28, d50 := 100, d90 := 820,
                  span := FVal.val (198/25), fines := 50, overs := 0 } := by
  norm_num [kpis, interpVal, countLE, fdiv, List.countP_cons, List.getD]

theorem kpis_zero_d50_computed :
    kpis [0, 100] [50, 100] =
      Except.ok { d10 := 0, d50 := 0, d90 := 80,
                  span := FVal.posInf, fines := 100, overs := 0 } := by
  norm_num [kpis, interpVal, countLE, fdiv, List.countP_cons, List.getD]

/-- C3 (amended): when the interpolated D50 is zero, the span division
does not raise; it returns a non-finite sentinel, namely +∞ or −∞ when
D90 ≠ D10 and NaN only when D90 = D10, never a finite value. -/
theorem span_nonfinite_when_d50_zero (sizes undersize : List ℚ) (r : KpiRecord)
    (hok : kpis sizes undersize = Except.ok r) (h0 : r.d50 = 0) :
    r.span = (if 0 < r.d90 - r.d10 then FVal.posInf
              else if r.d90 - r.d10 < 0 then FVal.negInf else FVal.nan) ∧
    ∀ q : ℚ, r.span ≠ FVal.val q := by
  obtain ⟨hlen, hne, rfl⟩ := (kpis_ok_iff _ _ _).mp hok
  have h0' : interpVal 50 undersize sizes = 0 := h0
  constructor
  · show fdiv (interpVal 90 undersize sizes - interpVal 10 undersize sizes)
        (interpVal 50 undersize sizes) = _
    rw [fdiv, if_neg (not_not_intro h0')]
  · intro q
    show fdiv (interpVal 90 undersize sizes - interpVal 10 undersize sizes)
        (interpVal 50 undersize sizes) ≠ FVal.val q
    rw [fdiv, if_neg (not_not_intro h0')]
    split_ifs <;> simp

/-- C3 witness: the concrete sample sizes = [0, 100],
undersize = [50, 100] has D50 = 0, and its span is the +∞ branch of
the sentinel, not a finite value. -/
theorem span_nonfinite_when_d50_zero_witness :
    ((⟨0, 0, 80, FVal.posInf, 100, 0⟩ : KpiRecord)).span =
      (if 0 < (80 : ℚ) - 0 then FVal.posInf
       else if (80 : ℚ) - 0 < 0 then FVal.negInf else FVal.nan) ∧
    ∀ q : ℚ, ((⟨0, 0, 80, FVal.posInf, 100, 0⟩ : KpiRecord)).span ≠ FVal.val q :=
  span_nonfinite_when_d50_zero [0, 100] [50, 100] _ kpis_zero_d50_computed rfl

/-- C3 counterexample: at sizes = [0, 100], undersize = [50, 100] the
interpolated D50 is 0, yet the span the extractor returns is +∞, not the
claimed NaN sentinel. -/
theorem span_nan_claim_cex :
    (kpis [0, 100] [50, 100]).map KpiRecord.d50 = Except.ok 0 ∧
    (kpis [0, 100] [50, 100]).map KpiRecord.span = Except.ok FVal.posInf ∧
    FVal.posInf ≠ FVal.nan := by
  rw [kpis_zero_d50_computed]
  exact ⟨rfl, rfl, by simp⟩

/-- C4 (amended): on sizes = [10, 100, 1000], undersize = [0, 50, 100]
the extractor returns D50 = 100, fines = 50, oversize = 0 as claimed, but
D10 interpolates to 28 and D90 to 820, so the span is
(820 − 28) / 100 = 7.92. -/
theorem kpis_scenario_values :
    kpis [10, 100, 1000] [0, 50, 100] =
      Except.ok { d10 := 28, d50 := 100, d90 := 820,
                  span := FVal.val (198/25), fines := 50, overs := 0 } :=
  kpis_scenario_computed

/-- C4 counterexample: the span on the spec's scenario input is
198/25 = 7.92, not the claimed (1000 − 10)/100 = 9.9. -/
theorem kpis_scenario_span_cex :
    (kpis [10, 100, 1000] [0, 50, 100]).map KpiRecord.span =
      Except.ok (FVal.val (198/25)) ∧ (198 : ℚ)/25 ≠ 99/10 := by
  rw [kpis_scenario_computed]
  exact ⟨rfl, by norm_num⟩

/-- C5 witness: on the scenario sample the percentiles 28 ≤ 100 ≤ 820
come out ordered. -/
theorem d10_le_d50_le_d90_witness :
    ((⟨28, 100, 820, FVal.val (198/25), 50, 0⟩ : KpiRecord)).d10 ≤
      ((⟨28, 100, 820, FVal.val (198/25), 50, 0⟩ : KpiRecord)).d50 ∧
    ((⟨28, 100, 820, FVal.val (198/25), 50, 0⟩ : KpiRecord)).d50 ≤
      ((⟨28, 100, 820, FVal.val (198/25), 50, 0⟩ : KpiRecord)).d90 :=
  d10_le_d50_le_d90 [10, 100, 1000] [0, 50, 100] _ (by decide) (by decide)
    kpis_scenario_computed

/-- C6 witness: on the scenario sample a target of −5 % clamps to the
first tabulated size 10 and a target of 150 % clamps to the last
tabulated size 1000. -/
theorem percentile_lookup_clamps_witness :
    interpVal (-5) [0, 50, 100] [10, 100, 1000] = 10 ∧
    interpVal 150 [0, 50, 100] [10, 100, 1000] = 1000 := by
  have h1 := (percentile_lookup_clamps [10, 100, 1000] [0, 50, 100] (-5)
    (by decide) (by decide) (by decide)).1 (by show (-5 : ℚ) < 0; norm_num)
  have h2 := (percentile_lookup_clamps [10, 100, 1000] [0, 50, 100] 150
    (by decide) (by decide) (by decide)).2 (by show (100 : ℚ) < 150; norm_num)
  exact ⟨h1, h2⟩

/-- C8 witness: the shipped Ditting sample has 100 µm as its ninth
tabulated size, and the extracted fines percentage is exactly the
tabulated undersize 16.88 there. -/
theorem fines_exact_at_knot_witness :
    (kpis dittingSizes dittingUndersize).map KpiRecord.fines =
      Except.ok (422/25) := by
  have h := fines_exact_at_knot dittingSizes dittingUndersize 8
    (by decide) (by decide) (by decide) (by decide)
  rw [h]
  norm_num [dittingUndersize]

/-- C10 (amended): on every pair of equal-length nonempty sequences —
sorted or not, strictly increasing or not — the KPI extraction returns a
full six-field record and raises nothing. -/
theorem kpis_total_with_data (sizes undersize : List ℚ)
    (hlen : sizes.length = undersize.length) (hne : sizes ≠ []) :
    ∃ r : KpiRecord, kpis sizes undersize = Except.ok r :=
  ⟨_, (kpis_ok_iff sizes undersize _).mpr ⟨hlen, hne, rfl⟩⟩

/-- C10 witness: the extraction succeeds on the shipped Colombini T1
sample, whose undersize table repeats its final value 99.77 and is
therefore not strictly increasing. -/
theorem kpis_total_with_data_witness :
    ∃ r : KpiRecord, kpis colombiniT1Sizes colombiniT1Undersize =
      Except.ok r :=
  kpis_total_with_data colombiniT1Sizes colombiniT1Undersize
    (by decide) (by decide)

/-- C10 counterexample: the empty pair of sequences has equal lengths,
yet the extraction raises the ValueError numpy.interp produces on an
empty sample-point array instead of returning a record. -/
theorem kpis_empty_input_cex :
    kpis ([] : List ℚ) ([] : List ℚ) =
      Except.error KpiError.emptyInterpTable := rfl

/-- C1: mismatched sequence lengths make the extraction fail with the
length error carrying both lengths; the batch loop emits no KPI row for
that sample (nothing is truncated), reports the error paired with the
sample name, and leaves the remaining samples untouched. -/
theorem kpis_length_mismatch_reported (name : String)
    (sizes undersize : List ℚ) (rest : List (String × List ℚ × List ℚ))
    (h : sizes.length ≠ undersize.length) :
    kpis sizes undersize =
      Except.error (KpiError.lengthMismatch sizes.length undersize.length) ∧
    (processSamples ((name, sizes, undersize) :: rest)).1 =
      (processSamples rest).1 ∧
    (processSamples ((name, sizes, undersize) :: rest)).2 =
      (name, KpiError.lengthMismatch sizes.length undersize.length) ::
        (processSamples rest).2 := by
  have hkpis : kpis sizes undersize =
      Except.error (KpiError.lengthMismatch sizes.length undersize.length) := by
    rw [kpis, if_pos h]
  refine ⟨hkpis, ?_, ?_⟩ <;> simp [processSamples, hkpis]

/-- C1 witness: a sample with two sizes and one undersize value fails
with the error carrying lengths 2 and 1, produces no row, and is reported
under its name. -/
theorem kpis_length_mismatch_reported_witness :
    kpis [10, 20] [5] = Except.error (KpiError.lengthMismatch 2 1) ∧
    (processSamples [(colombiniT1Name, [10, 20], [5])]).1 = [] ∧
    (processSamples [(colombiniT1Name, [10, 20], [5])]).2 =
      [(colombiniT1Name, KpiError.lengthMismatch 2 1)] := by
  have h := kpis_length_mismatch_reported colombiniT1Name [10, 20] [5] []
    (by decide)
  simpa [processSamples] using h

/-- C2: with a valid Ditting baseline row but no Colombini candidate
rows, the takeaway section reaches the delta lines with the local
`mac3_best` never assigned and dies with a NameError — an accidental
crash, not the designed empty-candidate error — emitting no table. -/
theorem executiveTakeaway_no_candidates_crash :
    executiveTakeaway [(dittingName, ⟨45, 456, 827, FVal.val 2, 17, 2⟩)] =
      Except.error TakeawayError.nameErrorMac3Best := rfl


theorem densityPoints_length_eq : ∀ (s u : List ℚ), s.length = u.length →
    (densityPoints s u).length = s.length - 1
  | [], [], _ => rfl
  | [_], [_], _ => rfl
  | [], _ :: _, h => by simp at h
  | _ :: _, [], h => by simp at h
  | [_], _ :: _ :: _, h => by simp at h
  | _ :: _ :: _, [_], h => by simp at h
  | s0 :: s1 :: ss, u0 :: u1 :: us, hlen => by
    have ih := densityPoints_length_eq (s1 :: ss) (u1 :: us) (by simpa using hlen)
    show (densityPoints (s1 :: ss) (u1 :: us)).length + 1 = _
    rw [ih]
    simp

theorem densitySum_telescopes : ∀ (s u : List ℚ), s.length = u.length →
    List.Chain' (· < ·) s → s ≠ [] →
    densitySum s u = u.getLastD 0 - u.headD 0
  | [], _, _, _, hne => absurd rfl hne
  | [_], [_], _, _, _ => by simp [densitySum]
  | [_], [], h, _, _ => by simp at h
  | [_], _ :: _ :: _, h, _, _ => by simp at h
  | _ :: _ :: _, [], h, _, _ => by simp at h
  | _ :: _ :: _, [_], h, _, _ => by simp at h
  | s0 :: s1 :: ss, u0 :: u1 :: us, hlen, hs, _ => by
    have hlt : s0 < s1 := (List.chain'_cons.mp hs).1
    have ih := densitySum_telescopes (s1 :: ss) (u1 :: us) (by simpa using hlen)
      (List.chain'_cons.mp hs).2 (by simp)
    have hstep : densitySum (s0 :: s1 :: ss) (u0 :: u1 :: us) =
        (u1 - u0) / (s1 - s0) * (s1 - s0) +
          densitySum (s1 :: ss) (u1 :: us) := rfl
    have hLast : (u0 :: u1 :: us).getLastD 0 = (u1 :: us).getLastD 0 := by
      cases us with
      | nil => rfl
      | cons w ws => rfl
    rw [hstep, ih, div_mul_cancel₀ _ (by linarith : s1 - s0 ≠ 0), hLast]
    show _ = (u1 :: us).getLastD 0 - u0
    have hhd : (u1 :: us).headD 0 = u1 := rfl
    rw [hhd]
    ring

theorem densitySum_eq_points_sum : ∀ (s u : List ℚ),
    densitySum s u =
      (List.zipWith (fun p w => p.2 * w) (densityPoints s u)
        (List.zipWith (fun a b => b - a) s s.tail)).sum
  | [], u => by cases u <;> simp [densitySum, densityPoints]
  | [_], u => by
    cases u with
    | nil => simp [densitySum, densityPoints]
    | cons u0 ut => cases ut <;> simp [densitySum, densityPoints]
  | s0 :: s1 :: ss, [] => by simp [densitySum, densityPoints]
  | s0 :: s1 :: ss, [_] => by simp [densitySum, densityPoints]
  | s0 :: s1 :: ss, u0 :: u1 :: us => by
    have ih := densitySum_eq_points_sum (s1 :: ss) (u1 :: us)
    have hstep : densitySum (s0 :: s1 :: ss) (u0 :: u1 :: us) =
        (u1 - u0) / (s1 - s0) * (s1 - s0) +
          densitySum (s1 :: ss) (u1 :: us) := rfl
    rw [hstep, ih]
    rfl

theorem curveDensity_eq_densityPoints (s u : List ℚ)
    (hlen : s.length = u.length) (hne : s ≠ []) :
    curveDensity s u = densityPoints s u := by
  rw [curveDensity]
  by_cases h : 1 < s.length
  · rw [if_pos ⟨hlen, h⟩]
  · rw [if_neg (by tauto)]
    have h1 : s.length = 1 := by
      have := List.length_pos.mpr hne
      omega
    obtain ⟨a, rfl⟩ : ∃ a, s = [a] := by
      cases s with
      | nil => simp at h1
      | cons x t =>
        cases t with
        | nil => exact ⟨x, rfl⟩
        | cons y r => simp at h1
    cases u with
    | nil => simp at hlen
    | cons b t =>
      cases t with
      | nil => rfl
      | cons c r => simp at hlen

/-- C7: for every valid sample the density sequence has one entry fewer
than the sample, the guarded chart path produces exactly those density
points, and the sum of density times bin width telescopes to the total
undersize gained across the table. -/
theorem density_length_and_reconstruction (sizes undersize : List ℚ)
    (hlen : sizes.length = undersize.length) (hne : sizes ≠ [])
    (hsz : List.Sorted (· < ·) sizes) :
    (densityPoints sizes undersize).length = sizes.length - 1 ∧
    curveDensity sizes undersize = densityPoints sizes undersize ∧
    (List.zipWith (fun p w => p.2 * w) (densityPoints sizes undersize)
        (List.zipWith (fun a b => b - a) sizes sizes.tail)).sum =
      undersize.getLastD 0 - undersize.headD 0 := by
  refine ⟨densityPoints_length_eq sizes undersize hlen,
    curveDensity_eq_densityPoints sizes undersize hlen hne, ?_⟩
  rw [← densitySum_eq_points_sum]
  exact densitySum_telescopes sizes undersize hlen hsz.chain' hne

/-- C7 witness: the scenario sample with three points yields two density
points whose width-weighted sum is the 100 − 0 total undersize. -/
theorem density_length_and_reconstruction_witness :
    (densityPoints [10, 100, 1000] [0, 50, 100]).length = 2 ∧
    curveDensity [10, 100, 1000] [0, 50, 100] =
      densityPoints [10, 100, 1000] [0, 50, 100] ∧
    (List.zipWith (fun p w => p.2 * w)
        (densityPoints [10, 100, 1000] [0, 50, 100])
        (List.zipWith (fun a b => b - a) ([10, 100, 1000] : List ℚ)
          ([10, 100, 1000] : List ℚ).tail)).sum = (100 : ℚ) - 0 :=
  density_length_and_reconstruction [10, 100, 1000] [0, 50, 100]
    (by decide) (by decide) (by decide)

/-- C9: a sample with a single tabulated point yields an empty density
sequence on both the unguarded numpy path and the guarded chart path;
both are total functions into plain lists, so no error is signalled. -/
theorem single_point_density_empty (a b : ℚ) :
    densityPoints [a] [b] = [] ∧ curveDensity [a] [b] = [] :=
  ⟨rfl, rfl⟩

end GrindDashboard
